import Mathlib

/-!
Verification of the LIBOR Market Model core (`GR5260/fms_lmm.h`).

The C++ code is a single templated struct `fms::lmm<T, F>` holding the term
structure `t`, futures quotes `phi`, caplet volatilities `sigma`, and an owned
correlated Brownian driver `B`.  Its one substantive operation is
`advance(u, f_, r)`: locate `j = upper_bound(t, u)`, `ensure` the index is in
range (otherwise the call fails), advance the driver to time `u`, and for every
`k` in `[j, n)` write
  `f_[k] = phi[k] * exp(sigma[k]*B[k] - sigma[k]*sigma[k]*u/2)`
followed, for `k > 0`, by the convexity adjustment
  `f_[k] -= sigma[k]*sigma[k]*dt*dt/2` with `dt = t[k-1] - u`.

Embedding choices.  The struct is templated over numeric types `T` (times) and
`F` (rates); we instantiate both with `ℚ`, which keeps every definition
computable and every concrete evaluation decidable.  The unqualified call
`exp(...)` resolves outside the translation unit, so the embedding abstracts it
as an explicit function argument `e : ℚ → ℚ`; theorems that need a property of
the exponential (only `e 0 = 1`) take it as a hypothesis.  The caller's raw
output pointer `F* f_` becomes a `List ℚ` passed in and returned.  C++ mutation
of the owned driver becomes explicit state passing: `advance` returns the
result together with the model state after the call (unchanged on failure,
since the `ensure` fires before `B.advance`).
-/

namespace fms

/-- Modelled from the spec: the correlated Brownian driver `fms::brownian<F>`
(declared in `fms_brownian.h`, which is not under `src/`).  Per the spec it
supports resetting to time 0 with a zero realized path, advancing to an
arbitrary time `u` while consuming a source of randomness, and indexed read
access to the realized value of each of its `d` correlated components at the
current path time.  The randomness source is modelled as a function giving the
realized component values at the requested time. -/
structure brownian where
  d : ℕ
  time : ℚ
  path : List ℚ
deriving DecidableEq

/-- Modelled from the spec: driver reset to its initial state, time 0 and zero
realized path. -/
def brownian.reset (B : brownian) : brownian :=
  { B with time := 0, path := List.replicate B.d 0 }

/-- Modelled from the spec: advancing the driver to time `u`, consuming the
randomness source `r`; afterwards the realized component values are those of
the path at time `u`. -/
def brownian.advance (B : brownian) (u : ℚ) (r : ℚ → List ℚ) : brownian :=
  { B with time := u, path := r u }

/-- Modelled from the spec: indexed read of realized component `k`.  The C++
`operator[]` performs no bounds check; an out-of-range read is undefined
behaviour, modelled here by the default value 0. -/
def brownian.read (B : brownian) (k : ℕ) : ℚ :=
  B.path.getD k 0

/-- The failure of the `ensure` macro in `lmm::advance` (`fms_lmm.h` line 59):
`advance` called with `u` at or beyond the final term point. -/
inductive Err where
  | OutOfRange
deriving DecidableEq

/-- The model `fms::lmm<T, F>` (`fms_lmm.h` lines 31-75) with `T = F = ℚ`:
term structure `t`, futures quotes `phi`, caplet volatilities `sigma`, and the
owned Brownian driver `B`. -/
structure lmm where
  t : List ℚ
  phi : List ℚ
  sigma : List ℚ
  B : brownian
deriving DecidableEq

namespace lmm

/-- The constructor `lmm(n, t, phi, sigma, e)`: copies the first `n` entries of
each input sequence and constructs the owned driver from the correlation
specification (the driver construction itself lives in `fms_brownian.h`). -/
def mk' (n : ℕ) (t phi sigma : List ℚ) (B0 : brownian) : lmm :=
  { t := t.take n, phi := phi.take n, sigma := sigma.take n, B := B0 }

/-- `lmm::size()` (`fms_lmm.h` lines 43-46): the number of tenor points. -/
def size (m : lmm) : ℕ :=
  m.t.length

/-- `lmm::reset()` (`fms_lmm.h` lines 48-51): resets the owned driver. -/
def reset (m : lmm) : lmm :=
  { m with B := m.B.reset }

/-- `std::upper_bound(t.begin(), t.end(), u) - t.begin()` (`fms_lmm.h` line
57) on the sorted term structure: the first index `j` with `u < t[j]`, or
`t.length` when no such index exists. -/
def upperIdx (m : lmm) (u : ℚ) : ℕ :=
  m.t.findIdx (fun x => decide (u < x))

/-- The body of the loop in `lmm::advance` (`fms_lmm.h` lines 63-71): the
futures value `phi[k] * exp(sigma[k]*B[k] - sigma[k]*sigma[k]*u/2)` computed
from the realized driver path `Bp`, minus, for `k > 0`, the convexity
adjustment `sigma[k]*sigma[k]*dt*dt/2` with `dt = t[k-1] - u`.  `e` is the
ambient `exp` routine. -/
def fwdValue (e : ℚ → ℚ) (m : lmm) (u : ℚ) (Bp : List ℚ) (k : ℕ) : ℚ :=
  let s := m.sigma.getD k 0
  let fut := m.phi.getD k 0 * e (s * Bp.getD k 0 - s * s * u / 2)
  if 0 < k then
    let dt := m.t.getD (k - 1) 0 - u
    fut - s * s * dt * dt / 2
  else fut

/-- `lmm::advance(u, f_, r)` (`fms_lmm.h` lines 54-74).  Returns the C++
return value (`j` paired with the buffer after the loop's writes) or the
`ensure` failure, together with the model state after the call.  The loop
`for (size_t k = j; k < t.size(); ++k) f_[k] = ...` rewrites exactly the
buffer entries with index in `[j, t.size())` and leaves the rest alone. -/
def advance (e : ℚ → ℚ) (m : lmm) (u : ℚ) (f : List ℚ) (r : ℚ → List ℚ) :
    Except Err (ℕ × List ℚ) × lmm :=
  let j := m.upperIdx u
  if j = m.t.length then
    (.error .OutOfRange, m)
  else
    let B1 := m.B.advance u r
    let f1 := (List.range f.length).map (fun k =>
      if j ≤ k ∧ k < m.t.length then fwdValue e m u B1.path k else f.getD k 0)
    (.ok (j, f1), { m with B := B1 })

/-- The driver component indices `k` at which the loop in `lmm::advance` reads
`B[k]` (`fms_lmm.h` line 65): every `k` from `j = upperIdx u` to
`t.size() - 1`. -/
def advanceReads (m : lmm) (u : ℚ) : List ℕ :=
  (List.range m.t.length).drop (m.upperIdx u)

/-! Basic lemmas about `upperIdx` and `advance`. -/

theorem upperIdx_le_length (m : lmm) (u : ℚ) : m.upperIdx u ≤ m.t.length :=
  List.findIdx_le_length _

theorem lt_getD_upperIdx {m : lmm} {u : ℚ} (h : m.upperIdx u < m.t.length) :
    u < m.t.getD (m.upperIdx u) 0 := by
  have h2 : m.t.findIdx (fun x => decide (u < x)) < m.t.length := h
  have hg := List.findIdx_getElem (p := fun x => decide (u < x)) (w := h2)
  simp only [decide_eq_true_eq] at hg
  simpa [List.getElem?_eq_getElem h] using hg

theorem getD_le_of_lt_upperIdx {m : lmm} {u : ℚ} {i : ℕ} (hi : i < m.upperIdx u) :
    m.t.getD i 0 ≤ u := by
  have hlen : i < m.t.length := lt_of_lt_of_le hi (upperIdx_le_length m u)
  have hi2 : i < m.t.findIdx (fun x => decide (u < x)) := hi
  have hni := List.not_of_lt_findIdx (p := fun x => decide (u < x)) hi2
  simp only [decide_eq_false_iff_not, not_lt] at hni
  simpa [List.getD_eq_getElem?_getD, List.getElem?_eq_getElem hlen] using hni

theorem upperIdx_lt_length_of_exists {m : lmm} {u : ℚ}
    (h : ∃ x ∈ m.t, u < x) : m.upperIdx u < m.t.length := by
  apply List.findIdx_lt_length_of_exists
  obtain ⟨x, hx, hux⟩ := h
  exact ⟨x, hx, by simpa using hux⟩

/-- On the success branch, `advance` returns the upper-bound index, the buffer
rewritten on `[j, n)`, and the model with the driver advanced to time `u`. -/
theorem advance_of_lt {e : ℚ → ℚ} {m : lmm} {u : ℚ} {f : List ℚ} {r : ℚ → List ℚ}
    (h : m.upperIdx u < m.t.length) :
    m.advance e u f r =
      (.ok (m.upperIdx u, (List.range f.length).map fun k =>
          if m.upperIdx u ≤ k ∧ k < m.t.length then fwdValue e m u (r u) k
          else f.getD k 0),
        { m with B := m.B.advance u r }) := by
  simp [advance, Nat.ne_of_lt h, brownian.advance]

/-- On the failure branch, `advance` reports `OutOfRange` and the model is
returned unchanged. -/
theorem advance_of_eq {e : ℚ → ℚ} {m : lmm} {u : ℚ} {f : List ℚ} {r : ℚ → List ℚ}
    (h : m.upperIdx u = m.t.length) :
    m.advance e u f r = (.error .OutOfRange, m) := by
  simp [advance, h]

/-- A successful result forces the success branch: the upper-bound index is in
range, the returned index is it, and the returned buffer is the rewritten one. -/
theorem advance_ok_inv {e : ℚ → ℚ} {m : lmm} {u : ℚ} {f : List ℚ} {r : ℚ → List ℚ}
    {j : ℕ} {f1 : List ℚ} {m1 : lmm}
    (h : m.advance e u f r = (.ok (j, f1), m1)) :
    m.upperIdx u < m.t.length ∧ j = m.upperIdx u ∧
      f1 = ((List.range f.length).map fun k =>
        if m.upperIdx u ≤ k ∧ k < m.t.length then fwdValue e m u (r u) k
        else f.getD k 0) ∧
      m1 = { m with B := m.B.advance u r } := by
  by_cases hj : m.upperIdx u = m.t.length
  · rw [advance_of_eq hj] at h
    exact absurd (congrArg Prod.fst h) (by simp)
  · have hlt : m.upperIdx u < m.t.length :=
      lt_of_le_of_ne (upperIdx_le_length m u) hj
    rw [advance_of_lt hlt] at h
    have h1 := congrArg Prod.fst h
    have h2 := congrArg Prod.snd h
    simp only at h1 h2
    injection h1 with h1
    injection h1 with ha hb
    exact ⟨hlt, ha.symm, hb.symm, h2.symm⟩

theorem getD_map_range {g : ℕ → ℚ} {n k : ℕ} (hk : k < n) :
    (((List.range n).map g).getD k 0) = g k := by
  simp [List.getD_eq_getElem?_getD, List.getElem?_map, List.getElem?_range, hk]

/-- In a strictly sorted list, every member is at most the last entry. -/
theorem le_getD_last_of_mem {l : List ℚ} (hs : l.Sorted (· < ·)) (hn : 0 < l.length)
    {x : ℚ} (hx : x ∈ l) : x ≤ l.getD (l.length - 1) 0 := by
  obtain ⟨i, hi, rfl⟩ := List.mem_iff_getElem.mp hx
  have hlast : l.length - 1 < l.length := Nat.sub_lt hn Nat.one_pos
  rw [List.getD_eq_getElem?_getD, List.getElem?_eq_getElem hlast, Option.getD_some]
  rcases lt_or_eq_of_le (Nat.le_sub_one_of_lt hi) with hlt | heq
  · have := hs.rel_get_of_lt (a := ⟨i, hi⟩) (b := ⟨l.length - 1, hlast⟩) hlt
    simpa [List.get_eq_getElem] using this.le
  · simp [heq]

end lmm

end fms

/-! Claim theorems. -/

deriving instance DecidableEq for Except

open fms

/-- C8: whenever `advance` fails with `OutOfRange`, the model state — in
particular the owned Brownian driver's path state — is returned unchanged:
the `ensure` fires before `B.advance` is called, so the failed call leaves
the model exactly as it was. -/
theorem advance_failure_preserves_state (e : ℚ → ℚ) (m : lmm) (u : ℚ)
    (f : List ℚ) (r : ℚ → List ℚ) (err : Err)
    (h : (m.advance e u f r).1 = .error err) :
    (m.advance e u f r).2 = m := by
  by_cases hj : m.upperIdx u = m.t.length
  · rw [lmm.advance_of_eq hj]
  · rw [lmm.advance_of_lt (lt_of_le_of_ne (lmm.upperIdx_le_length m u) hj)] at h ⊢
    simp at h

/-- C8 witness: with `t = [1]` and `u = 1` the call fails with `OutOfRange`
and the returned model equals the input model. -/
theorem advance_failure_preserves_state_witness :
    ((({ t := [1], phi := [2/100], sigma := [0],
         B := { d := 1, time := 0, path := [0] } } : lmm).advance
        (fun x => x) 1 [3] (fun _ => [0])).1 = .error .OutOfRange) ∧
    ((({ t := [1], phi := [2/100], sigma := [0],
         B := { d := 1, time := 0, path := [0] } } : lmm).advance
        (fun x => x) 1 [3] (fun _ => [0])).2 =
      { t := [1], phi := [2/100], sigma := [0],
        B := { d := 1, time := 0, path := [0] } }) :=
  ⟨by decide,
    advance_failure_preserves_state (fun x => x)
      { t := [1], phi := [2/100], sigma := [0],
        B := { d := 1, time := 0, path := [0] } } 1 [3] (fun _ => [0])
      .OutOfRange (by decide)⟩

/-- C9: the term structure and rate parameters are never touched after
construction: `reset` changes only the owned driver and `advance` changes
only the owned driver (the output buffer is caller-owned and passed
explicitly); `size` is a pure query, embedded as a function of the state,
and both operations preserve it. -/
theorem ops_preserve_parameters (e : ℚ → ℚ) (m : lmm) (u : ℚ)
    (f : List ℚ) (r : ℚ → List ℚ) :
    m.reset.t = m.t ∧ m.reset.phi = m.phi ∧ m.reset.sigma = m.sigma ∧
    (m.advance e u f r).2.t = m.t ∧ (m.advance e u f r).2.phi = m.phi ∧
    (m.advance e u f r).2.sigma = m.sigma ∧
    m.reset.size = m.size ∧ (m.advance e u f r).2.size = m.size := by
  have hr : m.reset.t = m.t ∧ m.reset.phi = m.phi ∧ m.reset.sigma = m.sigma :=
    ⟨rfl, rfl, rfl⟩
  have ha : (m.advance e u f r).2.t = m.t ∧ (m.advance e u f r).2.phi = m.phi ∧
      (m.advance e u f r).2.sigma = m.sigma := by
    by_cases hj : m.upperIdx u = m.t.length
    · rw [lmm.advance_of_eq hj]
      exact ⟨rfl, rfl, rfl⟩
    · rw [lmm.advance_of_lt (lt_of_le_of_ne (lmm.upperIdx_le_length m u) hj)]
      exact ⟨rfl, rfl, rfl⟩
  exact ⟨hr.1, hr.2.1, hr.2.2, ha.1, ha.2.1, ha.2.2,
    by simp [lmm.size, hr.1], by simp [lmm.size, ha.1]⟩

/-- C3: on a strictly increasing, nonempty term structure, `advance(u, ...)`
fails with `OutOfRange` exactly when `u >= t[n-1]`; for `u < t[n-1]` it does
not fail. -/
theorem advance_fails_iff_beyond_last (e : ℚ → ℚ) (m : lmm) (u : ℚ)
    (f : List ℚ) (r : ℚ → List ℚ)
    (hs : m.t.Sorted (· < ·)) (hn : 0 < m.size) :
    (m.advance e u f r).1 = .error .OutOfRange ↔
      m.t.getD (m.size - 1) 0 ≤ u := by
  have hlen : m.t.length - 1 < m.t.length := Nat.sub_lt hn Nat.one_pos
  constructor
  · intro h
    by_cases hj : m.upperIdx u = m.t.length
    · have hall := List.findIdx_eq_length.mp hj
      have := hall (m.t[m.t.length - 1]) (List.getElem_mem hlen)
      simp only [decide_eq_false_iff_not, not_lt] at this
      simpa [lmm.size, List.getD_eq_getElem?_getD, List.getElem?_eq_getElem hlen]
        using this
    · rw [lmm.advance_of_lt
        (lt_of_le_of_ne (lmm.upperIdx_le_length m u) hj)] at h
      simp at h
  · intro h
    have hall : ∀ x ∈ m.t, (fun x => decide (u < x)) x = false := by
      intro x hx
      have hxle : x ≤ m.t.getD (m.t.length - 1) 0 :=
        lmm.le_getD_last_of_mem hs hn hx
      simp only [decide_eq_false_iff_not, not_lt]
      calc x ≤ m.t.getD (m.t.length - 1) 0 := hxle
        _ ≤ u := by simpa [lmm.size] using h
    exact (lmm.advance_of_eq (List.findIdx_eq_length_of_false hall)) ▸ rfl

/-- C3 witness: with `t = [0, 1]`, the call at `u = 1` fails (`1 >= t[1]`)
while the call at `u = 1/2` does not. -/
theorem advance_fails_iff_beyond_last_witness :
    (([0, 1] : List ℚ).Sorted (· < ·) ∧
      0 < ({ t := [0, 1], phi := [1, 1], sigma := [0, 1/10],
             B := { d := 2, time := 0, path := [0, 0] } } : lmm).size) ∧
    ((({ t := [0, 1], phi := [1, 1], sigma := [0, 1/10],
         B := { d := 2, time := 0, path := [0, 0] } } : lmm).advance
        (fun _ => 1) 1 [5, 5] (fun _ => [0, 0])).1 = .error .OutOfRange ↔
      ([0, 1] : List ℚ).getD
        (({ t := [0, 1], phi := [1, 1], sigma := [0, 1/10],
            B := { d := 2, time := 0, path := [0, 0] } } : lmm).size - 1) 0 ≤ 1) :=
  ⟨⟨by decide, by decide⟩,
    advance_fails_iff_beyond_last (fun _ => 1)
      { t := [0, 1], phi := [1, 1], sigma := [0, 1/10],
        B := { d := 2, time := 0, path := [0, 0] } } 1 [5, 5] (fun _ => [0, 0])
      (by decide) (by decide)⟩

/-- C1: every buffer entry written by a successful `advance` (index `k` with
`j <= k <= n-1`) equals the futures value
`phi[k] * exp(sigma[k] * B[k](u) - sigma[k]^2 * u / 2)` — where `B[k](u)` is
the realized `k`-th driver component after the driver is advanced to time
`u` — minus, exactly when `k > 0`, the convexity correction
`sigma[k]^2 * (t[k-1] - u)^2 / 2`. -/
theorem advance_writes_futures_minus_convexity (e : ℚ → ℚ) (m : lmm) (u : ℚ)
    (f : List ℚ) (r : ℚ → List ℚ) (j : ℕ) (f1 : List ℚ) (m1 : lmm)
    (h : m.advance e u f r = (.ok (j, f1), m1))
    (k : ℕ) (hjk : j ≤ k) (hk : k < m.size) (hf : k < f.length) :
    f1.getD k 0 =
      m.phi.getD k 0 *
          e (m.sigma.getD k 0 * (m.B.advance u r).read k
              - m.sigma.getD k 0 * m.sigma.getD k 0 * u / 2)
        - (if 0 < k then
            m.sigma.getD k 0 * m.sigma.getD k 0 *
              (m.t.getD (k - 1) 0 - u) * (m.t.getD (k - 1) 0 - u) / 2
          else 0) := by
  obtain ⟨hlt, hje, hfe, _⟩ := lmm.advance_ok_inv h
  subst hje
  subst hfe
  rw [lmm.getD_map_range hf]
  rw [if_pos ⟨hjk, by simpa [lmm.size] using hk⟩]
  by_cases hk0 : 0 < k <;>
    simp [lmm.fwdValue, brownian.advance, brownian.read, hk0]

/-- C1 witness: a concrete successful call at `u = 1/2` on `t = [0, 1]` with
`k = 1`. -/
theorem advance_writes_futures_minus_convexity_witness :
    (({ t := [0, 1], phi := [1, 2], sigma := [0, 1],
        B := { d := 2, time := 0, path := [0, 0] } } : lmm).advance
        (fun _ => 1) (1/2) [5, 5] (fun _ => [0, 3]) =
      (.ok (1, [5, 2 * 1 - 1 * 1 * (0 - 1/2) * (0 - 1/2) / 2]),
        { t := [0, 1], phi := [1, 2], sigma := [0, 1],
          B := { d := 2, time := 1/2, path := [0, 3] } })) ∧
    (([5, 2 * 1 - 1 * 1 * (0 - 1/2) * (0 - 1/2) / 2] : List ℚ).getD 1 0 =
      ([1, 2] : List ℚ).getD 1 0 *
          (fun _ => (1:ℚ)) (([0, 1] : List ℚ).getD 1 0 *
              (({ d := 2, time := 0, path := [0, 0] } : brownian).advance (1/2)
                (fun _ => [0, 3])).read 1
            - ([0, 1] : List ℚ).getD 1 0 * ([0, 1] : List ℚ).getD 1 0 * (1/2) / 2)
        - (if 0 < 1 then
            ([0, 1] : List ℚ).getD 1 0 * ([0, 1] : List ℚ).getD 1 0 *
              (([0, 1] : List ℚ).getD (1 - 1) 0 - 1/2)
              * (([0, 1] : List ℚ).getD (1 - 1) 0 - 1/2) / 2
          else 0)) :=
  ⟨by
      rw [lmm.advance_of_lt (by norm_num [lmm.upperIdx, List.findIdx_cons])]
      norm_num [lmm.upperIdx, lmm.fwdValue, brownian.advance, List.findIdx_cons,
        List.range_succ, List.range_zero],
    advance_writes_futures_minus_convexity (fun _ => 1)
      { t := [0, 1], phi := [1, 2], sigma := [0, 1],
        B := { d := 2, time := 0, path := [0, 0] } } (1/2) [5, 5]
      (fun _ => [0, 3]) 1 [5, 2 * 1 - 1 * 1 * (0 - 1/2) * (0 - 1/2) / 2]
      { t := [0, 1], phi := [1, 2], sigma := [0, 1],
        B := { d := 2, time := 1/2, path := [0, 3] } }
      (by
        rw [lmm.advance_of_lt (by norm_num [lmm.upperIdx, List.findIdx_cons])]
        norm_num [lmm.upperIdx, lmm.fwdValue, brownian.advance, List.findIdx_cons,
          List.range_succ, List.range_zero])
      1 (by decide) (by decide) (by decide)⟩

/-- C4: a successful `advance` rewrites exactly the buffer entries with index
in `[j, n-1]`: the buffer keeps its length, entries below `j` are unchanged,
and entries at or beyond `n` are unchanged as well. -/
theorem advance_frame_untouched (e : ℚ → ℚ) (m : lmm) (u : ℚ)
    (f : List ℚ) (r : ℚ → List ℚ) (j : ℕ) (f1 : List ℚ) (m1 : lmm)
    (h : m.advance e u f r = (.ok (j, f1), m1)) :
    f1.length = f.length ∧
    (∀ k, k < j → f1.getD k 0 = f.getD k 0) ∧
    (∀ k, m.size ≤ k → f1.getD k 0 = f.getD k 0) := by
  obtain ⟨hlt, hje, hfe, _⟩ := lmm.advance_ok_inv h
  subst hje
  subst hfe
  refine ⟨by simp, ?_, ?_⟩
  · intro k hk
    by_cases hkf : k < f.length
    · rw [lmm.getD_map_range hkf, if_neg (by intro hc; exact absurd hk (not_lt.mpr hc.1))]
    · rw [List.getD_eq_getElem?_getD, List.getD_eq_getElem?_getD,
        List.getElem?_eq_none (by simpa using not_lt.mp hkf),
        List.getElem?_eq_none (not_lt.mp hkf)]
  · intro k hk
    by_cases hkf : k < f.length
    · rw [lmm.getD_map_range hkf,
        if_neg (by intro hc; exact absurd hc.2 (not_lt.mpr (by simpa [lmm.size] using hk)))]
    · rw [List.getD_eq_getElem?_getD, List.getD_eq_getElem?_getD,
        List.getElem?_eq_none (by simpa using not_lt.mp hkf),
        List.getElem?_eq_none (not_lt.mp hkf)]

/-- C4 witness: on `t = [0, 1]` at `u = 1/2` the returned index is `1` and
buffer entry `0` is untouched. -/
theorem advance_frame_untouched_witness :
    (([5, 2 * 1 - 1 * 1 * (0 - 1/2) * (0 - 1/2) / 2] : List ℚ).length =
        ([5, 5] : List ℚ).length) ∧
    (∀ k, k < 1 →
      ([5, 2 * 1 - 1 * 1 * (0 - 1/2) * (0 - 1/2) / 2] : List ℚ).getD k 0 =
        ([5, 5] : List ℚ).getD k 0) ∧
    (∀ k, ({ t := [0, 1], phi := [1, 2], sigma := [0, 1],
             B := { d := 2, time := 0, path := [0, 0] } } : lmm).size ≤ k →
      ([5, 2 * 1 - 1 * 1 * (0 - 1/2) * (0 - 1/2) / 2] : List ℚ).getD k 0 =
        ([5, 5] : List ℚ).getD k 0) :=
  advance_frame_untouched (fun _ => 1)
    { t := [0, 1], phi := [1, 2], sigma := [0, 1],
      B := { d := 2, time := 0, path := [0, 0] } } (1/2) [5, 5]
    (fun _ => [0, 3]) 1 [5, 2 * 1 - 1 * 1 * (0 - 1/2) * (0 - 1/2) / 2]
    { t := [0, 1], phi := [1, 2], sigma := [0, 1],
      B := { d := 2, time := 1/2, path := [0, 3] } }
    (by
      rw [lmm.advance_of_lt (by norm_num [lmm.upperIdx, List.findIdx_cons])]
      norm_num [lmm.upperIdx, lmm.fwdValue, brownian.advance, List.findIdx_cons,
        List.range_succ, List.range_zero])

/-- C6: for a written index `k` with `sigma[k] = 0`, the value written is
exactly `phi[k]`, whatever the realized Brownian values are: the Brownian
term vanishes (`exp 0 = 1`, the one property of the external exponential the
claim uses) and the convexity correction is identically zero. -/
theorem advance_zero_vol_exact (e : ℚ → ℚ) (m : lmm) (u : ℚ)
    (f : List ℚ) (r : ℚ → List ℚ) (j : ℕ) (f1 : List ℚ) (m1 : lmm)
    (he : e 0 = 1)
    (h : m.advance e u f r = (.ok (j, f1), m1))
    (k : ℕ) (hjk : j ≤ k) (hk : k < m.size) (hf : k < f.length)
    (hsig : m.sigma.getD k 0 = 0) :
    f1.getD k 0 = m.phi.getD k 0 := by
  obtain ⟨hlt, hje, hfe, _⟩ := lmm.advance_ok_inv h
  subst hje
  subst hfe
  rw [lmm.getD_map_range hf]
  rw [if_pos ⟨hjk, by simpa [lmm.size] using hk⟩]
  by_cases hk0 : 0 < k <;>
    · simp only [lmm.fwdValue, hsig]
      simp [hk0, he]

/-- C6 witness: at `u = 0` with `j = 0` and `sigma[0] = 0` the value written
at index `0` is exactly `phi[0] = 1/2`. -/
theorem advance_zero_vol_exact_witness :
    ((fun _ => (1:ℚ)) 0 = 1) ∧
    (([1/2] : List ℚ).getD 0 0 =
      (({ t := [1], phi := [1/2], sigma := [0],
          B := { d := 1, time := 0, path := [0] } } : lmm).phi).getD 0 0) :=
  ⟨rfl,
    advance_zero_vol_exact (fun _ => 1)
      { t := [1], phi := [1/2], sigma := [0],
        B := { d := 1, time := 0, path := [0] } } 0 [7] (fun _ => [0])
      0 [1/2]
      { t := [1], phi := [1/2], sigma := [0],
        B := { d := 1, time := 0, path := [0] } } rfl
      (by
        rw [lmm.advance_of_lt (by norm_num [lmm.upperIdx, List.findIdx_cons])]
        norm_num [lmm.upperIdx, lmm.fwdValue, brownian.advance, List.findIdx_cons,
          List.range_succ, List.range_zero])
      0 (by decide) (by decide) (by decide) (by decide)⟩

/-- C7: for a written index `k > 0`, the forward value written is at most the
uncorrected futures value: the convexity correction that is subtracted,
`sigma[k]^2 * dt^2 / 2`, is a nonnegative quantity. -/
theorem advance_forward_le_futures (e : ℚ → ℚ) (m : lmm) (u : ℚ)
    (f : List ℚ) (r : ℚ → List ℚ) (j : ℕ) (f1 : List ℚ) (m1 : lmm)
    (h : m.advance e u f r = (.ok (j, f1), m1))
    (k : ℕ) (hjk : j ≤ k) (hk1 : 1 ≤ k) (hk : k < m.size) (hf : k < f.length)
    ( _hsig : m.sigma.getD k 0 ≠ 0) :
    f1.getD k 0 ≤
      m.phi.getD k 0 *
        e (m.sigma.getD k 0 * (m.B.advance u r).read k
            - m.sigma.getD k 0 * m.sigma.getD k 0 * u / 2) := by
  obtain ⟨hlt, hje, hfe, _⟩ := lmm.advance_ok_inv h
  subst hje
  subst hfe
  rw [lmm.getD_map_range hf]
  rw [if_pos ⟨hjk, by simpa [lmm.size] using hk⟩]
  simp only [lmm.fwdValue, brownian.advance, brownian.read, Nat.lt_of_lt_of_le Nat.zero_lt_one hk1, if_pos]
  apply sub_le_self
  have hsq : (m.sigma.getD k 0 * m.sigma.getD k 0) *
      ((m.t.getD (k - 1) 0 - u) * (m.t.getD (k - 1) 0 - u)) ≥ 0 :=
    mul_nonneg (mul_self_nonneg _) (mul_self_nonneg _)
  calc (0:ℚ) ≤ (m.sigma.getD k 0 * m.sigma.getD k 0) *
        ((m.t.getD (k - 1) 0 - u) * (m.t.getD (k - 1) 0 - u)) / 2 := by positivity
    _ = m.sigma.getD k 0 * m.sigma.getD k 0 *
        (m.t.getD (k - 1) 0 - u) * (m.t.getD (k - 1) 0 - u) / 2 := by ring

/-- C7 witness: the concrete call of the C1 witness at `k = 1`, where
`sigma[1] = 1`: the written value `15/8` is at most the futures value `2`. -/
theorem advance_forward_le_futures_witness :
    ((([0, 1] : List ℚ).getD 1 0 ≠ 0) ∧
    (([5, 2 * 1 - 1 * 1 * (0 - 1/2) * (0 - 1/2) / 2] : List ℚ).getD 1 0 ≤
      ([1, 2] : List ℚ).getD 1 0 *
        (fun _ => (1:ℚ)) (([0, 1] : List ℚ).getD 1 0 *
            (({ d := 2, time := 0, path := [0, 0] } : brownian).advance (1/2)
              (fun _ => [0, 3])).read 1
          - ([0, 1] : List ℚ).getD 1 0 * ([0, 1] : List ℚ).getD 1 0 * (1/2) / 2))) :=
  ⟨by norm_num,
    advance_forward_le_futures (fun _ => 1)
      { t := [0, 1], phi := [1, 2], sigma := [0, 1],
        B := { d := 2, time := 0, path := [0, 0] } } (1/2) [5, 5]
      (fun _ => [0, 3]) 1 [5, 2 * 1 - 1 * 1 * (0 - 1/2) * (0 - 1/2) / 2]
      { t := [0, 1], phi := [1, 2], sigma := [0, 1],
        B := { d := 2, time := 1/2, path := [0, 3] } }
      (by
        rw [lmm.advance_of_lt (by norm_num [lmm.upperIdx, List.findIdx_cons])]
        norm_num [lmm.upperIdx, lmm.fwdValue, brownian.advance, List.findIdx_cons,
          List.range_succ, List.range_zero])
      1 (by decide) (by decide) (by decide) (by decide) (by norm_num)⟩

/-- C2 counterexample: on the strictly increasing term structure `t = [1, 2]`
with `u = -1 < t[1]`, `advance` succeeds and returns `j = 0`, yet the claimed
equivalent characterization `t[j-1] <= u` under the convention `t[-1] = 0`
fails there: `0 <= -1` is false. -/
theorem advance_tprev_convention_cex :
    (({ t := [1, 2], phi := [1, 1], sigma := [0, 0],
        B := { d := 2, time := 0, path := [0, 0] } } : lmm).advance
      (fun _ => 1) (-1) [3, 3] (fun _ => [0, 0])).1 = .ok (0, [1, 1]) ∧
    ¬((0:ℚ) ≤ -1) := by
  constructor
  · rw [lmm.advance_of_lt (by norm_num [lmm.upperIdx, List.findIdx_cons])]
    norm_num [lmm.upperIdx, lmm.fwdValue, brownian.advance, List.findIdx_cons,
      List.range_succ, List.range_zero]
  · norm_num

/-- C2 (amended): on a strictly increasing term structure with `u < t[n-1]`,
`advance` succeeds and returns the smallest index `j` with `t[j] > u` (so
`t[j-1] <= u < t[j]` holds whenever `j > 0`); the reading of that bound via
the convention `t[-1] = 0` additionally holds whenever `u >= 0`. -/
theorem advance_returns_least_upper_index (e : ℚ → ℚ) (m : lmm) (u : ℚ)
    (f : List ℚ) (r : ℚ → List ℚ)
    ( _hs : m.t.Sorted (· < ·)) (hn : 0 < m.size)
    (hu : u < m.t.getD (m.size - 1) 0) :
    ∃ j f1 m1, m.advance e u f r = (.ok (j, f1), m1) ∧ j < m.size ∧
      u < m.t.getD j 0 ∧ (∀ i, i < j → m.t.getD i 0 ≤ u) ∧
      (0 ≤ u → (if j = 0 then (0:ℚ) else m.t.getD (j - 1) 0) ≤ u) := by
  have hn' : 0 < m.t.length := by simpa [lmm.size] using hn
  have hlen : m.t.length - 1 < m.t.length := Nat.sub_lt hn' Nat.one_pos
  have hmem : m.t.getD (m.t.length - 1) 0 ∈ m.t := by
    rw [List.getD_eq_getElem?_getD, List.getElem?_eq_getElem hlen, Option.getD_some]
    exact List.getElem_mem hlen
  have hlt : m.upperIdx u < m.t.length :=
    lmm.upperIdx_lt_length_of_exists ⟨_, hmem, by simpa [lmm.size] using hu⟩
  refine ⟨m.upperIdx u, _, _, lmm.advance_of_lt hlt, by simpa [lmm.size] using hlt,
    lmm.lt_getD_upperIdx hlt, fun i hi => lmm.getD_le_of_lt_upperIdx hi, ?_⟩
  intro hu0
  by_cases hj0 : m.upperIdx u = 0
  · simpa [hj0] using hu0
  · rw [if_neg hj0]
    exact lmm.getD_le_of_lt_upperIdx (Nat.sub_lt (Nat.pos_of_ne_zero hj0) Nat.one_pos)

/-- C2 witness: the concrete call `advance(1/2)` on `t = [0, 1]`. -/
theorem advance_returns_least_upper_index_witness :
    (([0, 1] : List ℚ).Sorted (· < ·) ∧
      0 < ({ t := [0, 1], phi := [1, 2], sigma := [0, 1],
             B := { d := 2, time := 0, path := [0, 0] } } : lmm).size ∧
      (1:ℚ)/2 < ([0, 1] : List ℚ).getD
        (({ t := [0, 1], phi := [1, 2], sigma := [0, 1],
            B := { d := 2, time := 0, path := [0, 0] } } : lmm).size - 1) 0) ∧
    (∃ j f1 m1,
      ({ t := [0, 1], phi := [1, 2], sigma := [0, 1],
         B := { d := 2, time := 0, path := [0, 0] } } : lmm).advance
          (fun _ => 1) (1/2) [5, 5] (fun _ => [0, 3]) = (.ok (j, f1), m1) ∧
      j < ({ t := [0, 1], phi := [1, 2], sigma := [0, 1],
             B := { d := 2, time := 0, path := [0, 0] } } : lmm).size ∧
      (1:ℚ)/2 < ([0, 1] : List ℚ).getD j 0 ∧
      (∀ i, i < j → ([0, 1] : List ℚ).getD i 0 ≤ 1/2) ∧
      ((0:ℚ) ≤ 1/2 → (if j = 0 then (0:ℚ) else ([0, 1] : List ℚ).getD (j - 1) 0) ≤ 1/2)) :=
  ⟨⟨by norm_num, by decide, by norm_num [lmm.size]⟩,
    advance_returns_least_upper_index (fun _ => 1)
      { t := [0, 1], phi := [1, 2], sigma := [0, 1],
        B := { d := 2, time := 0, path := [0, 0] } } (1/2) [5, 5]
      (fun _ => [0, 3]) (by norm_num) (by decide) (by norm_num [lmm.size])⟩

/-- C5: the spec's worked example. With `n = 3`, `t = [0, 1, 2]`,
`phi = [0.02, 0.03, 0.04]`, `sigma = [0, 0.2, 0.25]`, and the driver realizing
`B = [0, 0.1, 0.05]` at time `1/2`, `advance(1/2, buf, r)` returns `j = 1`,
leaves `buf[0]` unmodified, and writes
`buf[1] = 0.03 * exp(0.2*0.1 - 0.2^2*(1/2)/2) - 0.2^2*(0 - 1/2)^2/2` (its
`dt = t[0] - u = -1/2`) and
`buf[2] = 0.04 * exp(0.25*0.05 - 0.25^2*(1/2)/2) - 0.25^2*(1 - 1/2)^2/2`. -/
theorem advance_example_n3 (e : ℚ → ℚ) (b0 b1 b2 : ℚ) :
    ({ t := [0, 1, 2], phi := [2/100, 3/100, 4/100], sigma := [0, 2/10, 25/100],
       B := { d := 3, time := 0, path := [0, 0, 0] } } : lmm).advance e (1/2)
      [b0, b1, b2] (fun _ => [0, 1/10, 5/100]) =
    (.ok (1,
      [b0,
       3/100 * e (2/10 * (1/10) - (2/10) * (2/10) * (1/2) / 2)
         - (2/10) * (2/10) * (0 - 1/2) * (0 - 1/2) / 2,
       4/100 * e (25/100 * (5/100) - (25/100) * (25/100) * (1/2) / 2)
         - (25/100) * (25/100) * (1 - 1/2) * (1 - 1/2) / 2]),
     { t := [0, 1, 2], phi := [2/100, 3/100, 4/100], sigma := [0, 2/10, 25/100],
       B := { d := 3, time := 1/2, path := [0, 1/10, 5/100] } }) := by
  rw [lmm.advance_of_lt (by norm_num [lmm.upperIdx, List.findIdx_cons])]
  norm_num [lmm.upperIdx, lmm.fwdValue, brownian.advance, List.findIdx_cons,
    List.range_succ, List.range_zero]

/-- C10: the loop in `advance` reads driver components `j .. n-1` with no
bounds check against the driver dimension `d`: the call succeeds with no
reference to `d` whatsoever, and for a call made before the first tenor
(`u < t[0]`, so components `0 .. n-1` are all read) every read is within the
driver's dimension if and only if `d >= n` — a precondition the interface
never states or validates. -/
theorem advance_reads_in_range_iff_dim_ge (e : ℚ → ℚ) (m : lmm) (u : ℚ)
    (f : List ℚ) (r : ℚ → List ℚ) (hn : 0 < m.size)
    (hu : u < m.t.getD 0 0) :
    (∃ v, (m.advance e u f r).1 = .ok v) ∧
    ((∀ k ∈ m.advanceReads u, k < m.B.d) ↔ m.size ≤ m.B.d) := by
  have hn' : 0 < m.t.length := by simpa [lmm.size] using hn
  have hj0 : m.upperIdx u = 0 := by
    apply (List.findIdx_eq hn').mpr
    refine ⟨?_, fun j hj => absurd hj (Nat.not_lt_zero j)⟩
    simp only [decide_eq_true_eq]
    simpa [List.getD_eq_getElem?_getD, List.getElem?_eq_getElem hn'] using hu
  have hlt : m.upperIdx u < m.t.length := hj0 ▸ hn'
  have hreads : m.advanceReads u = List.range m.t.length := by
    simp [lmm.advanceReads, hj0]
  constructor
  · exact ⟨_, by rw [lmm.advance_of_lt hlt]⟩
  · rw [hreads]
    constructor
    · intro hall
      have hlast := hall (m.t.length - 1)
        (List.mem_range.mpr (Nat.sub_lt hn' Nat.one_pos))
      have : m.t.length - 1 < m.B.d := hlast
      simp only [lmm.size]
      omega
    · intro hd k hk
      exact lt_of_lt_of_le (List.mem_range.mp hk) (by simpa [lmm.size] using hd)

/-- C10 witness: a model with `n = 2` tenor points and a driver of dimension
`d = 2`, called at `u = 0 < t[0] = 1`. -/
theorem advance_reads_in_range_iff_dim_ge_witness :
    (0 < ({ t := [1, 2], phi := [1, 1], sigma := [0, 0],
            B := { d := 2, time := 0, path := [0, 0] } } : lmm).size ∧
      (0:ℚ) < ([1, 2] : List ℚ).getD 0 0) ∧
    ((∃ v, (({ t := [1, 2], phi := [1, 1], sigma := [0, 0],
               B := { d := 2, time := 0, path := [0, 0] } } : lmm).advance
          (fun _ => 1) 0 [3, 3] (fun _ => [0, 0])).1 = .ok v) ∧
      ((∀ k ∈ ({ t := [1, 2], phi := [1, 1], sigma := [0, 0],
                 B := { d := 2, time := 0, path := [0, 0] } } : lmm).advanceReads 0,
          k < 2) ↔
        ({ t := [1, 2], phi := [1, 1], sigma := [0, 0],
           B := { d := 2, time := 0, path := [0, 0] } } : lmm).size ≤ 2)) :=
  ⟨⟨by decide, by norm_num⟩,
    advance_reads_in_range_iff_dim_ge (fun _ => 1)
      { t := [1, 2], phi := [1, 1], sigma := [0, 0],
        B := { d := 2, time := 0, path := [0, 0] } } 0 [3, 3] (fun _ => [0, 0])
      (by decide) (by norm_num)⟩
